import Mathlib

/-!
Verification of the field-extraction core of `gitdata` (`gitdata.py`):
the nested field resolver `nested_json_value`, the record projector
`data_fields`, and the page-aggregation loop of `github_data`, embedded
shallowly with Python exceptions reified in `Except` and the process-wide
`_settings.unknownfieldname` set passed and returned explicitly.
-/

namespace Gitdata

/-- A JSON-like value: scalar (string, number, boolean, null), ordered
sequence, or mapping from string key to value with insertion order
preserved (Python `dict`). -/
inductive Json where
  | null
  | bool (b : Bool)
  | num (n : Int)
  | str (s : String)
  | arr (elems : List Json)
  | obj (entries : List (String × Json))
deriving Repr

/-- The two exception classes caught by `nested_json_value`'s
`except (TypeError, KeyError)` clauses. -/
inductive PyErr where
  | keyError
  | typeError
deriving Repr, DecidableEq

/-- Python subscripting `value[key]` with a string key: succeeds only on a
dict that contains the key; a dict without the key raises `KeyError`, and
any non-dict value (`None`, scalars, lists, strings) raises `TypeError`. -/
def pySubscript : Json → String → Except PyErr Json
  | .obj entries, key =>
    match List.lookup key entries with
    | some v => .ok v
    | none => .error .keyError
  | _, _ => .error .typeError

/-- Python truthiness of a JSON value, as used by
`'private' if jsondata[fldname] else 'public'`. -/
def pyTruthy : Json → Bool
  | .null => false
  | .bool b => b
  | .num n => n != 0
  | .str s => !s.isEmpty
  | .arr elems => !elems.isEmpty
  | .obj entries => !entries.isEmpty

/-- Helper for `pySplitDots`: accumulates the current segment (reversed). -/
def splitDotsAux : List Char → List Char → List String
  | acc, [] => [String.mk acc.reverse]
  | acc, c :: cs =>
    if c = '.' then String.mk acc.reverse :: splitDotsAux [] cs
    else splitDotsAux (c :: acc) cs

/-- Python `dot_fldname.split('.')`: the segments between the dots, in
order; an empty string yields `[""]`, adjacent/trailing dots yield empty
segments. -/
def pySplitDots (s : String) : List String :=
  splitDotsAux [] s.toList

/-- Python `fldname.replace('.', '_')`: single-character replacement is a
character-wise map. -/
def pyReplaceDots (s : String) : String :=
  String.mk (s.toList.map (fun c => if c = '.' then '_' else c))

/-- Python `fldname.lower()` (field names are ASCII). -/
def pyLower (s : String) : String :=
  String.mk (s.toList.map Char.toLower)

/-- Python `name.endswith(suffix)`. -/
def pyEndsWith (s sfx : String) : Bool :=
  sfx.toList.isSuffixOf s.toList

/-- `set.add(x)` on `_settings.unknownfieldname`, the set modelled as a
duplicate-free list in insertion order. -/
def setAdd (s : List String) (x : String) : List String :=
  if x ∈ s then s else s ++ [x]

/-- `OrderedDict` assignment `values[key] = v`: if the key is present its
value is replaced in place (keeping its position), otherwise the pair is
appended at the end. -/
def odSet (values : List (String × Json)) (key : String) (v : Json) :
    List (String × Json) :=
  if values.any (fun kv => kv.1 == key) then
    values.map (fun kv => if kv.1 == key then (key, v) else kv)
  else values ++ [(key, v)]

/-- `values.update(constants)`: assign each constant, in the constants'
own order. -/
def odUpdate (values constants : List (String × Json)) :
    List (String × Json) :=
  constants.foldl (fun acc kv => odSet acc kv.1 kv.2) values

/-- The subscripting expression inside the `try` of each depth branch of
`nested_json_value`, on the already-split `keys` list:
`nested_dict[keys[0]]...[keys[depth-1]]`, left to right, with the
exceptions reified in `Except`.  `depth` is `dot_fldname.count('.') + 1`,
which is exactly the number of segments produced by the split; Python's
depth-1 branch subscripts with `dot_fldname` itself, which is `keys[0]`
when there is no dot.  The final `else` branch (depth 5 and beyond) uses
only `keys[0]` through `keys[4]`. -/
def nested_lookup_aux (nested_dict : Json) (keys : List String) :
    Except PyErr Json :=
  let depth := keys.length
  if depth = 1 then
    pySubscript nested_dict (keys.getD 0 "")
  else if depth = 2 then
    (pySubscript nested_dict (keys.getD 0 "")).bind fun v1 =>
      pySubscript v1 (keys.getD 1 "")
  else if depth = 3 then
    ((pySubscript nested_dict (keys.getD 0 "")).bind fun v1 =>
      pySubscript v1 (keys.getD 1 "")).bind fun v2 =>
      pySubscript v2 (keys.getD 2 "")
  else if depth = 4 then
    (((pySubscript nested_dict (keys.getD 0 "")).bind fun v1 =>
      pySubscript v1 (keys.getD 1 "")).bind fun v2 =>
      pySubscript v2 (keys.getD 2 "")).bind fun v3 =>
      pySubscript v3 (keys.getD 3 "")
  else
    ((((pySubscript nested_dict (keys.getD 0 "")).bind fun v1 =>
      pySubscript v1 (keys.getD 1 "")).bind fun v2 =>
      pySubscript v2 (keys.getD 2 "")).bind fun v3 =>
      pySubscript v3 (keys.getD 3 "")).bind fun v4 =>
      pySubscript v4 (keys.getD 4 "")

/-- The attempted nested lookup of `nested_json_value(nested_dict,
dot_fldname)`, before exception handling. -/
def nested_lookup (nested_dict : Json) (dot_fldname : String) :
    Except PyErr Json :=
  nested_lookup_aux nested_dict (pySplitDots dot_fldname)

/-- `nested_json_value(nested_dict, dot_fldname)`: return the nested value
reached by the dotted path; on `TypeError`/`KeyError` record the path in
`_settings.unknownfieldname` and return the Python `None` sentinel
(`Json.null`).  The set is passed and returned explicitly. -/
def nested_json_value (nested_dict : Json) (dot_fldname : String)
    (unknownfieldname : List String) : Json × List String :=
  match nested_lookup nested_dict dot_fldname with
  | .ok retval => (retval, unknownfieldname)
  | .error _ => (Json.null, setAdd unknownfieldname dot_fldname)

/-- `default_fields(entity)`: default field names per entity type. -/
def default_fields (entity : String) : List String :=
  if entity = "member" then ["login", "id", "type"]
  else if entity = "repo" then ["name", "owner.login"]
  else if entity = "team" then ["name", "id", "privacy", "permission"]
  else if entity = "org" then ["login", "user"]
  else if entity = "collab" then ["login", "owner", "repo", "id"]
  else if entity = "commit" then
    ["commit.committer.date", "committer.login", "commit.message"]
  else ["name"]

/-- `str(this_item.__class__) == "<class 'dict'>"`. -/
def isDict : Json → Bool
  | .obj _ => true
  | _ => false

/-- The dict comprehension `{key: value for (key, value) in
this_item.items() if not key.endswith('url')}` (identity on non-dicts,
where the projector never applies it). -/
def stripUrlKeys : Json → Json
  | .obj entries => .obj (entries.filter (fun kv => !pyEndsWith kv.1 "url"))
  | j => j

/-- The `for fldname in jsondata` loop of the wildcard branch of
`data_fields`, over the payload's top-level entries in insertion order
(`mode` is `fields[0]`). -/
def data_fields_wildcard (mode : String) :
    List (String × Json) → List (String × Json) → List (String × Json)
  | [], values => values
  | (fldname, this_item) :: rest, values =>
    if mode = "*" ∨ (mode = "urls" ∧ pyEndsWith fldname "url")
        ∨ (mode = "nourls" ∧ ¬pyEndsWith fldname "url") then
      if isDict this_item ∧ mode = "nourls" then
        data_fields_wildcard mode rest
          (odSet values fldname (stripUrlKeys this_item))
      else
        data_fields_wildcard mode rest (odSet values fldname this_item)
    else
      data_fields_wildcard mode rest values

/-- The `for fldname in fields` loop of the explicit branch of
`data_fields`.  The `private` special case subscripts `jsondata[fldname]`
outside any `try`, so its `KeyError`/`TypeError` propagates; the
already-mutated unknown-field set survives the exception.
`constants[fldname]` is read with a default that is unreachable because
the branch requires the key to be present. -/
def data_fields_explicit (jsondata : Json)
    (constants : List (String × Json)) :
    List String → List (String × Json) → List String →
    Except PyErr (List (String × Json)) × List String
  | [], values, unknown => (.ok values, unknown)
  | fldname :: rest, values, unknown =>
    if ¬constants.isEmpty ∧ (List.lookup fldname constants).isSome then
      data_fields_explicit jsondata constants rest
        (odSet values fldname ((List.lookup fldname constants).getD .null))
        unknown
    else
      let r := nested_json_value jsondata fldname unknown
      let values1 := odSet values (pyReplaceDots fldname) r.1
      if pyLower fldname = "private" then
        match pySubscript jsondata fldname with
        | .ok item =>
          data_fields_explicit jsondata constants rest
            (odSet values1 fldname
              (.str (if pyTruthy item then "private" else "public")))
            r.2
        | .error e => (.error e, r.2)
      else
        data_fields_explicit jsondata constants rest values1 r.2

/-- `data_fields(entity=…, jsondata=…, fields=…, constants=…)`: project one
payload item into an ordered record.  An empty `fields` list falls back to
`default_fields(entity)` (never empty, so `headD`'s default is
unreachable).  In wildcard mode the payload's own top-level keys are
iterated; a page item is a JSON object (a non-dict payload's iteration is
modelled as `TypeError`).  The unknown-field set is threaded through. -/
def data_fields (entity : String) (jsondata : Json) (fields : List String)
    (constants : List (String × Json)) (unknown : List String) :
    Except PyErr (List (String × Json)) × List String :=
  let flds := if fields.isEmpty then default_fields entity else fields
  let fld0 := flds.headD ""
  if fld0 = "*" ∨ fld0 = "urls" ∨ fld0 = "nourls" then
    let values0 :=
      if ¬constants.isEmpty ∧ (fld0 = "*" ∨ fld0 = "nourls") then
        odUpdate [] constants
      else []
    match jsondata with
    | .obj entries => (.ok (data_fields_wildcard fld0 entries values0), unknown)
    | _ => (.error .typeError, unknown)
  else
    data_fields_explicit jsondata constants flds [] unknown

/-- Modelled from the spec: `github_allpages` lives in the external
`githuberino` module, which is not among the repository's sources; per the
spec (§4.3, §6) it yields all pages' items flattened in arrival order,
preserving intra-page order. -/
def github_allpages (pages : List (List Json)) : List Json :=
  pages.flatten

/-- The field-extraction loop closing `github_data`:
`for json_item in all_fields: retval.append(data_fields(...))`; an
exception raised by `data_fields` propagates, the set state surviving. -/
def extract_fields_loop (entity : String) (fields : List String)
    (constants : List (String × Json)) :
    List Json → List String →
    Except PyErr (List (List (String × Json))) × List String
  | [], unknown => (.ok [], unknown)
  | item :: rest, unknown =>
    match data_fields entity item fields constants unknown with
    | (.ok record, unknown1) =>
      match extract_fields_loop entity fields constants rest unknown1 with
      | (.ok records, unknown2) => (.ok (record :: records), unknown2)
      | (.error e, unknown2) => (.error e, unknown2)
    | (.error e, unknown1) => (.error e, unknown1)

/-- `github_data(...)` restricted to its data path: the retrieved pages
(the datasource prompting and caching branches are presentation and
persistence collaborators) are flattened by `github_allpages` and each
item is projected by `data_fields`. -/
def github_data (pages : List (List Json)) (entity : String)
    (fields : List String) (constants : List (String × Json))
    (unknown : List String) :
    Except PyErr (List (List (String × Json))) × List String :=
  extract_fields_loop entity fields constants (github_allpages pages) unknown

/-- Sequential subscripting `d[k1][k2]…[kn]` over a list of keys (used to
state what the resolver's depth-cased branches compute). -/
def pyChain : Json → List String → Except PyErr Json
  | d, [] => .ok d
  | d, k :: ks => (pySubscript d k).bind fun v => pyChain v ks

/-- Modelled from the spec (§4.1), for checking `nested_json_value` against
it: walk the payload one segment at a time; the lookup fails as soon as
the current value is not a mapping or the key is absent. -/
def resolve_spec_walk : Json → List String → Option Json
  | payload, [] => some payload
  | payload, seg :: rest =>
    match payload with
    | .obj entries =>
      match List.lookup seg entries with
      | some v => resolve_spec_walk v rest
      | none => none
    | _ => none

/-- Modelled from the spec (§4.1): `resolve(payload, path)`, splitting the
path on `.` and walking segment by segment; `none` is the "not found"
outcome. -/
def resolve_spec (payload : Json) (path : String) : Option Json :=
  resolve_spec_walk payload (pySplitDots path)

/-! ### Helper lemmas -/

theorem exceptBind_assoc (x : Except PyErr Json)
    (f g : Json → Except PyErr Json) :
    (x.bind f).bind g = x.bind (fun v => (f v).bind g) := by
  cases x <;> rfl

theorem exceptBind_pure (x : Except PyErr Json) :
    (x.bind fun v => Except.ok v) = x := by
  cases x <;> rfl

/-- The chained subscripting succeeds exactly where the spec's
mapping-by-mapping walk does, with the same value. -/
theorem pyChain_toOption (ks : List String) : ∀ d : Json,
    (pyChain d ks).toOption = resolve_spec_walk d ks := by
  induction ks with
  | nil => intro d; rfl
  | cons k rest ih =>
    intro d
    cases d with
    | obj entries =>
      simp only [pyChain, pySubscript, resolve_spec_walk]
      cases List.lookup k entries with
      | some v => simpa using ih v
      | none => rfl
    | null => rfl
    | bool b => rfl
    | num n => rfl
    | str s => rfl
    | arr elems => rfl

/-- The depth-cased branches of the resolver compute the subscript chain
over the first five segments. -/
theorem nested_lookup_aux_eq (d : Json) (keys : List String)
    (h : keys ≠ []) :
    nested_lookup_aux d keys = pyChain d (keys.take 5) := by
  match keys with
  | [] => exact absurd rfl h
  | [a] =>
    simp [nested_lookup_aux, pyChain, exceptBind_pure]
  | [a, b] =>
    simp [nested_lookup_aux, pyChain, exceptBind_assoc, exceptBind_pure]
  | [a, b, c] =>
    simp [nested_lookup_aux, pyChain, exceptBind_assoc, exceptBind_pure]
  | [a, b, c, e] =>
    simp [nested_lookup_aux, pyChain, exceptBind_assoc, exceptBind_pure]
  | a :: b :: c :: e :: f :: rest =>
    show nested_lookup_aux d (a :: b :: c :: e :: f :: rest) = _
    unfold nested_lookup_aux
    rw [if_neg (by simp), if_neg (by simp), if_neg (by simp),
      if_neg (by simp)]
    simp [pyChain, exceptBind_assoc, exceptBind_pure]

/-- The looked-up value does not depend on the unknown-field set passed
in (the set is an append-only accumulator). -/
theorem nested_json_value_fst_indep (j : Json) (p : String)
    (s1 s2 : List String) :
    (nested_json_value j p s1).1 = (nested_json_value j p s2).1 := by
  unfold nested_json_value
  cases nested_lookup j p <;> rfl

theorem any_key_eq_false {values : List (String × Json)} {k : String}
    (h : k ∉ values.map Prod.fst) :
    values.any (fun kv => kv.1 == k) = false := by
  rw [List.any_eq_false]
  intro kv hkv
  simp only [beq_iff_eq]
  intro he
  exact h (he ▸ List.mem_map_of_mem Prod.fst hkv)

/-- Assigning a fresh key appends the pair. -/
theorem odSet_append {values : List (String × Json)} {k : String}
    (v : Json) (h : k ∉ values.map Prod.fst) :
    odSet values k v = values ++ [(k, v)] := by
  simp [odSet, any_key_eq_false h]

theorem lookup_append_sing_self {values : List (String × Json)}
    {k : String} (v : Json) (h : k ∉ values.map Prod.fst) :
    List.lookup k (values ++ [(k, v)]) = some v := by
  induction values with
  | nil => simp [List.lookup]
  | cons a l ih =>
    obtain ⟨ka, va⟩ := a
    simp only [List.map_cons, List.mem_cons] at h
    push_neg at h
    have hb : (k == ka) = false := beq_eq_false_iff_ne.mpr h.1
    simp only [List.cons_append, List.lookup, hb]
    exact ih h.2

theorem lookup_append_sing_ne {values : List (String × Json)}
    {k k2 : String} (v : Json) (h : k ≠ k2) :
    List.lookup k (values ++ [(k2, v)]) = List.lookup k values := by
  induction values with
  | nil =>
    have hb : (k == k2) = false := beq_eq_false_iff_ne.mpr h
    simp [List.lookup, hb]
  | cons a l ih =>
    obtain ⟨ka, va⟩ := a
    simp only [List.cons_append, List.lookup]
    cases k == ka
    · exact ih
    · rfl

theorem lookup_map_overwrite_self {values : List (String × Json)}
    {k : String} (v : Json)
    (h : values.any (fun kv => kv.1 == k) = true) :
    List.lookup k (values.map fun kv => if kv.1 == k then (k, v) else kv)
      = some v := by
  induction values with
  | nil => simp at h
  | cons a l ih =>
    obtain ⟨ka, va⟩ := a
    by_cases hk : ka = k
    · subst hk
      simp only [List.map_cons]
      rw [if_pos (beq_self_eq_true ka)]
      simp [List.lookup]
    · have hk' : (ka == k) = false := beq_eq_false_iff_ne.mpr hk
      have hb : (k == ka) = false :=
        beq_eq_false_iff_ne.mpr (fun he => hk he.symm)
      simp only [List.any_cons, hk', Bool.false_or] at h
      simp only [List.map_cons]
      rw [if_neg (by simp [hk'])]
      simp only [List.lookup, hb]
      exact ih h

theorem lookup_map_overwrite_ne {values : List (String × Json)}
    {k k2 : String} (v : Json) (h : k ≠ k2) :
    List.lookup k (values.map fun kv => if kv.1 == k2 then (k2, v) else kv)
      = List.lookup k values := by
  induction values with
  | nil => rfl
  | cons a l ih =>
    obtain ⟨ka, va⟩ := a
    by_cases hk : ka = k2
    · subst hk
      have hb : (k == ka) = false := beq_eq_false_iff_ne.mpr h
      simp only [List.map_cons]
      rw [if_pos (beq_self_eq_true ka)]
      simp only [List.lookup, hb]
      exact ih
    · have hk' : (ka == k2) = false := beq_eq_false_iff_ne.mpr hk
      simp only [List.map_cons]
      rw [if_neg (by simp [hk'])]
      simp only [List.lookup]
      cases k == ka
      · exact ih
      · rfl

/-- After `values[k] = v`, looking up `k` finds `v`. -/
theorem lookup_odSet_self (values : List (String × Json)) (k : String)
    (v : Json) : List.lookup k (odSet values k v) = some v := by
  unfold odSet
  cases h : values.any (fun kv => kv.1 == k)
  · simp only [if_false, Bool.false_eq_true]
    exact lookup_append_sing_self v (by
      intro hm
      obtain ⟨kv, hkv, hfst⟩ := List.mem_map.mp hm
      have := List.any_eq_false.mp h kv hkv
      simp [hfst] at this)
  · simp only [if_true]
    exact lookup_map_overwrite_self v h

/-- `values[k2] = v` does not change the value looked up at `k ≠ k2`. -/
theorem lookup_odSet_ne (values : List (String × Json)) {k k2 : String}
    (v : Json) (h : k ≠ k2) :
    List.lookup k (odSet values k2 v) = List.lookup k values := by
  unfold odSet
  cases values.any (fun kv => kv.1 == k2)
  · simp only [if_false, Bool.false_eq_true]
    exact lookup_append_sing_ne v h
  · simp only [if_true]
    exact lookup_map_overwrite_ne v h

theorem mem_setAdd_self (s : List String) (x : String) : x ∈ setAdd s x := by
  by_cases h : x ∈ s <;> simp [setAdd, h]

theorem setAdd_of_mem {s : List String} {x : String} (h : x ∈ s) :
    setAdd s x = s := by
  simp [setAdd, h]

theorem setAdd_of_not_mem {s : List String} {x : String} (h : x ∉ s) :
    setAdd s x = s ++ [x] := by
  simp [setAdd, h]

theorem setAdd_idem (s : List String) (x : String) :
    setAdd (setAdd s x) x = setAdd s x :=
  setAdd_of_mem (mem_setAdd_self s x)

/-- The record (or exception) produced by the explicit-fields loop does not
depend on the unknown-field set passed in. -/
theorem data_fields_explicit_fst_indep (j : Json)
    (c : List (String × Json)) :
    ∀ (flds : List String) (values : List (String × Json))
      (s1 s2 : List String),
    (data_fields_explicit j c flds values s1).1
      = (data_fields_explicit j c flds values s2).1 := by
  intro flds
  induction flds with
  | nil => intro values s1 s2; rfl
  | cons f rest ih =>
    intro values s1 s2
    simp only [data_fields_explicit]
    by_cases hc : ¬c.isEmpty ∧ (List.lookup f c).isSome
    · rw [if_pos hc, if_pos hc]
      exact ih _ s1 s2
    · rw [if_neg hc, if_neg hc]
      have hval : (nested_json_value j f s1).1
          = (nested_json_value j f s2).1 :=
        nested_json_value_fst_indep j f s1 s2
      by_cases hp : pyLower f = "private"
      · rw [if_pos hp, if_pos hp, hval]
        cases pySubscript j f with
        | ok item => exact ih _ _ _
        | error e => rfl
      · rw [if_neg hp, if_neg hp, hval]
        exact ih _ _ _

/-- The record (or exception) produced by `data_fields` does not depend on
the unknown-field set passed in. -/
theorem data_fields_fst_indep (e : String) (j : Json) (flds : List String)
    (c : List (String × Json)) (s1 s2 : List String) :
    (data_fields e j flds c s1).1 = (data_fields e j flds c s2).1 := by
  simp only [data_fields]
  by_cases hw : ((if flds.isEmpty then default_fields e else flds).headD ""
        = "*")
      ∨ ((if flds.isEmpty then default_fields e else flds).headD ""
        = "urls")
      ∨ ((if flds.isEmpty then default_fields e else flds).headD ""
        = "nourls")
  · rw [if_pos hw, if_pos hw]
    cases j <;> rfl
  · rw [if_neg hw, if_neg hw]
    exact data_fields_explicit_fst_indep j c _ [] s1 s2

/-- The extraction loop of `github_data` is `mapM` of the projection: one
record per item, in item order, stopping at the first exception. -/
theorem extract_fields_loop_eq_mapM (e : String) (flds : List String)
    (c : List (String × Json)) :
    ∀ (items : List Json) (s : List String),
    (extract_fields_loop e flds c items s).1
      = items.mapM (fun item => (data_fields e item flds c []).1) := by
  intro items
  induction items with
  | nil => intro s; rfl
  | cons item rest ih =>
    intro s
    rw [List.mapM_cons]
    simp only [extract_fields_loop]
    rcases hd : data_fields e item flds c s with ⟨res, s1⟩
    have hres : (data_fields e item flds c []).1 = res := by
      rw [data_fields_fst_indep e item flds c [] s, hd]
    rw [hres]
    cases res with
    | error err => rfl
    | ok record =>
      rcases hrest : extract_fields_loop e flds c rest s1 with ⟨res2, s2⟩
      have hres2 : rest.mapM (fun item => (data_fields e item flds c []).1)
          = res2 := by
        rw [← ih s1, hrest]
      cases res2 with
      | error err => simp only [hrest, hres2]; rfl
      | ok records => simp only [hrest, hres2]; rfl

/-- `values.update(constants)` with fresh, pairwise-distinct constant keys
appends the constants in their own order. -/
theorem odUpdate_fresh :
    ∀ (constants values : List (String × Json)),
    (constants.map Prod.fst).Nodup →
    (∀ k ∈ constants.map Prod.fst, k ∉ values.map Prod.fst) →
    odUpdate values constants = values ++ constants := by
  intro constants
  induction constants with
  | nil => intro values _ _; simp [odUpdate]
  | cons kv rest ih =>
    intro values hnd hdisj
    obtain ⟨k, v⟩ := kv
    simp only [List.map_cons, List.nodup_cons] at hnd
    have hstep : odSet values k v = values ++ [(k, v)] :=
      odSet_append v (hdisj k (by simp))
    show odUpdate (odSet values k v) rest = values ++ (k, v) :: rest
    rw [hstep, ih (values ++ [(k, v)]) hnd.2 ?_, List.append_assoc]
    · rfl
    · intro k2 hk2
      simp only [List.map_append, List.mem_append]
      push_neg
      refine ⟨hdisj k2 (by simp [hk2]), ?_⟩
      simp only [List.map_cons, List.map_nil, List.mem_singleton]
      intro he
      exact hnd.1 (he ▸ hk2)

/-- A non-dict value is left alone by the url-stripping comprehension. -/
theorem stripUrlKeys_of_not_dict {j : Json} (h : isDict j = false) :
    stripUrlKeys j = j := by
  cases j <;> first | rfl | simp [isDict] at h

/-- Wildcard `*`: the loop emits every top-level entry, in payload order,
after the pre-inserted values. -/
theorem data_fields_wildcard_star :
    ∀ (entries values : List (String × Json)),
    (entries.map Prod.fst).Nodup →
    (∀ k ∈ entries.map Prod.fst, k ∉ values.map Prod.fst) →
    data_fields_wildcard "*" entries values = values ++ entries := by
  intro entries
  induction entries with
  | nil => intro values _ _; simp [data_fields_wildcard]
  | cons kv rest ih =>
    intro values hnd hdisj
    obtain ⟨fldname, this_item⟩ := kv
    simp only [List.map_cons, List.nodup_cons] at hnd
    simp only [data_fields_wildcard]
    rw [if_pos (by simp), if_neg (by simp)]
    have hstep : odSet values fldname this_item
        = values ++ [(fldname, this_item)] :=
      odSet_append this_item (hdisj fldname (by simp))
    rw [hstep, ih (values ++ [(fldname, this_item)]) hnd.2 ?_,
      List.append_assoc]
    · rfl
    · intro k2 hk2
      simp only [List.map_append, List.mem_append]
      push_neg
      refine ⟨hdisj k2 (by simp [hk2]), ?_⟩
      simp only [List.map_cons, List.map_nil, List.mem_singleton]
      intro he
      exact hnd.1 (he ▸ hk2)

/-- Wildcard `urls`: the loop emits exactly the top-level entries whose key
ends in `url`, in payload order, after the pre-inserted values. -/
theorem data_fields_wildcard_urls :
    ∀ (entries values : List (String × Json)),
    (entries.map Prod.fst).Nodup →
    (∀ k ∈ entries.map Prod.fst, k ∉ values.map Prod.fst) →
    data_fields_wildcard "urls" entries values
      = values ++ entries.filter (fun kv => pyEndsWith kv.1 "url") := by
  intro entries
  induction entries with
  | nil => intro values _ _; simp [data_fields_wildcard]
  | cons kv rest ih =>
    intro values hnd hdisj
    obtain ⟨fldname, this_item⟩ := kv
    simp only [List.map_cons, List.nodup_cons] at hnd
    simp only [data_fields_wildcard]
    by_cases hu : pyEndsWith fldname "url" = true
    · rw [if_pos (by simp [hu]), if_neg (by simp)]
      have hstep : odSet values fldname this_item
          = values ++ [(fldname, this_item)] :=
        odSet_append this_item (hdisj fldname (by simp))
      rw [hstep, ih (values ++ [(fldname, this_item)]) hnd.2 ?_,
        List.append_assoc]
      · congr 1
        simp [List.filter_cons, hu]
      · intro k2 hk2
        simp only [List.map_append, List.mem_append]
        push_neg
        refine ⟨hdisj k2 (by simp [hk2]), ?_⟩
        simp only [List.map_cons, List.map_nil, List.mem_singleton]
        intro he
        exact hnd.1 (he ▸ hk2)
    · rw [if_neg (by simp [hu]),
        ih values hnd.2 (fun k2 hk2 => hdisj k2 (by simp [hk2]))]
      congr 1
      simp [List.filter_cons, hu]

/-- Wildcard `nourls`: the loop emits exactly the top-level entries whose
key does not end in `url`, with one level of `*url` keys stripped from
embedded dict values, after the pre-inserted values. -/
theorem data_fields_wildcard_nourls :
    ∀ (entries values : List (String × Json)),
    (entries.map Prod.fst).Nodup →
    (∀ k ∈ entries.map Prod.fst, k ∉ values.map Prod.fst) →
    data_fields_wildcard "nourls" entries values
      = values ++ (entries.filter (fun kv => !pyEndsWith kv.1 "url")).map
          (fun kv => (kv.1, stripUrlKeys kv.2)) := by
  intro entries
  induction entries with
  | nil => intro values _ _; simp [data_fields_wildcard]
  | cons kv rest ih =>
    intro values hnd hdisj
    obtain ⟨fldname, this_item⟩ := kv
    simp only [List.map_cons, List.nodup_cons] at hnd
    simp only [data_fields_wildcard]
    by_cases hu : pyEndsWith fldname "url" = true
    · rw [if_neg (by simp [hu]),
        ih values hnd.2 (fun k2 hk2 => hdisj k2 (by simp [hk2]))]
      congr 1
      simp [List.filter_cons, hu]
    · rw [if_pos (by simp [hu])]
      have hfresh : ∀ x : Json, odSet values fldname x
          = values ++ [(fldname, x)] :=
        fun x => odSet_append x (hdisj fldname (by simp))
      have htail : ∀ x : Json,
          data_fields_wildcard "nourls" rest (values ++ [(fldname, x)])
            = (values ++ [(fldname, x)])
              ++ (rest.filter (fun kv => !pyEndsWith kv.1 "url")).map
                (fun kv => (kv.1, stripUrlKeys kv.2)) := by
        intro x
        refine ih (values ++ [(fldname, x)]) hnd.2 ?_
        intro k2 hk2
        simp only [List.map_append, List.mem_append]
        push_neg
        refine ⟨hdisj k2 (by simp [hk2]), ?_⟩
        simp only [List.map_cons, List.map_nil, List.mem_singleton]
        intro he
        exact hnd.1 (he ▸ hk2)
      by_cases hd : isDict this_item = true
      · rw [if_pos (by simp [hd]), hfresh, htail, List.append_assoc]
        congr 1
        simp [List.filter_cons, hu, stripUrlKeys, hd]
      · rw [if_neg (by simp [hd]), hfresh, htail, List.append_assoc]
        congr 1
        simp [List.filter_cons, hu]
        exact (stripUrlKeys_of_not_dict (by simpa using hd)).symm

/-! ### Claim theorems -/

/-- C1: For a payload and a dotted field path of 1 to 5 segments, if every
non-final segment resolves to a mapping and the final key is present (the
spec-side `resolve_spec` succeeds), `nested_json_value` returns the exact
nested value and leaves the unknown-field set unchanged; otherwise (absent
key or non-mapping intermediate, including null where an object was
expected) it returns the not-found sentinel (`Json.null`, Python `None`)
and records the path in the unknown-field set.  No exception escapes: the
internal `TypeError`/`KeyError` are caught, and the embedding is total. -/
theorem resolver_matches_spec (j : Json) (p : String) (s : List String)
    (h1 : 1 ≤ (pySplitDots p).length) (h5 : (pySplitDots p).length ≤ 5) :
    nested_json_value j p s =
      match resolve_spec j p with
      | some v => (v, s)
      | none => (Json.null, setAdd s p) := by
  have hne : pySplitDots p ≠ [] := by
    intro he
    rw [he] at h1
    exact absurd h1 (by decide)
  have htake : (pySplitDots p).take 5 = pySplitDots p :=
    List.take_of_length_le h5
  have hchain := pyChain_toOption (pySplitDots p) j
  unfold nested_json_value nested_lookup
  rw [nested_lookup_aux_eq j (pySplitDots p) hne, htake]
  unfold resolve_spec
  cases hc : pyChain j (pySplitDots p) with
  | ok v =>
    rw [hc] at hchain
    simp only [Except.toOption] at hchain
    rw [← hchain]
  | error err =>
    rw [hc] at hchain
    simp only [Except.toOption] at hchain
    rw [← hchain]

/-- Witness for C1 at a present two-segment path. -/
theorem resolver_matches_spec_witness :
    (1 ≤ (pySplitDots "owner.login").length
      ∧ (pySplitDots "owner.login").length ≤ 5)
    ∧ nested_json_value
        (Json.obj [("owner", Json.obj [("login", Json.str "acme")])])
        "owner.login" [] = (Json.str "acme", []) :=
  ⟨⟨by decide, by decide⟩, by
    rw [resolver_matches_spec
      (Json.obj [("owner", Json.obj [("login", Json.str "acme")])])
      "owner.login" [] (by decide) (by decide)]
    rfl⟩

/-- C10: For a dotted path of more than 5 segments the resolver does not
fail on the extra segments: it performs the five-level subscript chain on
the first five segments only (so a 6-or-more-segment path present at its
first five segments returns the value at depth 5), and the looked-up value
is the same for any path sharing those first five segments. -/
theorem resolver_ignores_extra_segments (j : Json) (p : String)
    (s : List String) (h : 5 < (pySplitDots p).length) :
    (∀ v, pyChain j ((pySplitDots p).take 5) = .ok v →
      nested_json_value j p s = (v, s))
    ∧ ∀ q s2, (pySplitDots q).take 5 = (pySplitDots p).take 5 →
      (nested_json_value j q s2).1 = (nested_json_value j p s).1 := by
  have hne : pySplitDots p ≠ [] := by
    intro he
    rw [he] at h
    exact absurd h (by decide)
  constructor
  · intro v hv
    unfold nested_json_value nested_lookup
    rw [nested_lookup_aux_eq j (pySplitDots p) hne, hv]
  · intro q s2 htake
    have hqne : pySplitDots q ≠ [] := by
      intro he
      have hlen : ((pySplitDots p).take 5).length = 5 := by
        rw [List.length_take]
        omega
      rw [← htake, he] at hlen
      simp at hlen
    unfold nested_json_value nested_lookup
    rw [nested_lookup_aux_eq j (pySplitDots q) hqne,
      nested_lookup_aux_eq j (pySplitDots p) hne, htake]
    cases pyChain j ((pySplitDots p).take 5) <;> rfl

/-- Witness for C10: a six-segment path returns the value at depth 5. -/
theorem resolver_ignores_extra_segments_witness :
    5 < (pySplitDots "a.b.c.d.e.f").length
    ∧ nested_json_value
        (Json.obj [("a", Json.obj [("b", Json.obj [("c", Json.obj [("d",
          Json.obj [("e", Json.str "depth5")])])])])])
        "a.b.c.d.e.f" [] = (Json.str "depth5", []) :=
  ⟨by decide,
    (resolver_ignores_extra_segments
      (Json.obj [("a", Json.obj [("b", Json.obj [("c", Json.obj [("d",
        Json.obj [("e", Json.str "depth5")])])])])])
      "a.b.c.d.e.f" [] (by decide)).1 (Json.str "depth5") rfl⟩

/-- C2 (code bug): requesting the field `private` when it is absent from
the payload makes `data_fields` raise `KeyError` instead of degrading to a
missing value: the `private` special case evaluates `jsondata[fldname]`
outside any `try`.  The unknown-field set has already recorded the path
when the exception escapes. -/
theorem projector_raises_on_absent_private :
    data_fields "repo" (Json.obj []) ["private"] [] []
      = (.error PyErr.keyError, ["private"]) := rfl

/-- In explicit mode, a run of fields that are neither constant keys nor
named `private`, with pairwise-distinct underscored output keys, appends
one entry per field: the underscored path mapped to the resolver's
value. -/
theorem data_fields_explicit_plain (j : Json) (c : List (String × Json)) :
    ∀ (flds : List String) (values : List (String × Json))
      (s : List String),
    (∀ f ∈ flds, List.lookup f c = none) →
    (∀ f ∈ flds, pyLower f ≠ "private") →
    (flds.map pyReplaceDots).Nodup →
    (∀ f ∈ flds, pyReplaceDots f ∉ values.map Prod.fst) →
    (data_fields_explicit j c flds values s).1
      = .ok (values ++ flds.map fun f =>
          (pyReplaceDots f, (nested_json_value j f []).1)) := by
  intro flds
  induction flds with
  | nil => intro values s _ _ _ _; simp [data_fields_explicit]
  | cons f rest ih =>
    intro values s hc hp hnd hfresh
    simp only [List.map_cons, List.nodup_cons] at hnd
    simp only [data_fields_explicit]
    rw [if_neg ?hcon, if_neg (hp f (by simp))]
    case hcon =>
      rintro ⟨-, hsome⟩
      rw [hc f (by simp)] at hsome
      simp at hsome
    rw [odSet_append ((nested_json_value j f s).1) (hfresh f (by simp)),
      nested_json_value_fst_indep j f s [],
      ih (values ++ [(pyReplaceDots f, (nested_json_value j f []).1)])
        ((nested_json_value j f s).2)
        (fun f2 hf2 => hc f2 (by simp [hf2]))
        (fun f2 hf2 => hp f2 (by simp [hf2]))
        hnd.2 ?hfr,
      List.append_assoc]
    · rfl
    case hfr =>
      intro f2 hf2
      simp only [List.map_append, List.mem_append]
      push_neg
      refine ⟨hfresh f2 (by simp [hf2]), ?_⟩
      simp only [List.map_cons, List.map_nil, List.mem_singleton]
      intro he
      exact hnd.1 (he ▸ List.mem_map_of_mem pyReplaceDots hf2)

/-- C3: In explicit mode, with each requested path outside the constants
mapping and not named `private`, and with the underscored output keys
pairwise distinct, the projector emits, for each requested path in the
given order, the value resolved by `nested_json_value` under the output
key equal to the path with every `.` replaced by `_`. -/
theorem explicit_projection_order (e : String) (j : Json)
    (flds : List String) (c : List (String × Json)) (s : List String)
    (hne : flds ≠ [])
    (hw : flds.headD "" ≠ "*" ∧ flds.headD "" ≠ "urls"
      ∧ flds.headD "" ≠ "nourls")
    (hc : ∀ f ∈ flds, List.lookup f c = none)
    (hp : ∀ f ∈ flds, pyLower f ≠ "private")
    (hnd : (flds.map pyReplaceDots).Nodup) :
    (data_fields e j flds c s).1
      = .ok (flds.map fun f =>
          (pyReplaceDots f, (nested_json_value j f []).1)) := by
  obtain ⟨f0, rest, rfl⟩ := List.exists_cons_of_ne_nil hne
  simp only [List.headD_cons] at hw
  simp only [data_fields, List.isEmpty_cons]
  rw [if_neg (by rintro (h | h | h) <;> simp_all)]
  exact data_fields_explicit_plain j c (f0 :: rest) [] s hc hp hnd
    (by simp)

/-- Witness for C3: the claim's concrete example, in the claimed key
order. -/
theorem explicit_projection_order_witness :
    (data_fields "repo"
      (Json.obj [("owner", Json.obj [("login", Json.str "acme")]),
                 ("name", Json.str "widgets")])
      ["owner.login", "name"] [] []).1
    = .ok [("owner_login", Json.str "acme"),
           ("name", Json.str "widgets")] := by
  rw [explicit_projection_order "repo"
    (Json.obj [("owner", Json.obj [("login", Json.str "acme")]),
               ("name", Json.str "widgets")])
    ["owner.login", "name"] [] []
    (by simp) (by refine ⟨?_, ?_, ?_⟩ <;> decide)
    (by intro f _; rfl) (by intro f hf; fin_cases hf <;> decide)
    (by decide)]
  rfl

/-- Unfolding of `data_fields` on a single wildcard token and an object
payload. -/
theorem data_fields_wildcard_mode (e mode : String)
    (hm : mode = "*" ∨ mode = "urls" ∨ mode = "nourls")
    (entries c : List (String × Json)) (s : List String) :
    data_fields e (Json.obj entries) [mode] c s
      = (.ok (data_fields_wildcard mode entries
          (if ¬c.isEmpty ∧ (mode = "*" ∨ mode = "nourls") then
            odUpdate [] c
          else [])), s) := by
  have hstep : data_fields e (Json.obj entries) [mode] c s
      = if mode = "*" ∨ mode = "urls" ∨ mode = "nourls" then
          (.ok (data_fields_wildcard mode entries
            (if ¬c.isEmpty ∧ (mode = "*" ∨ mode = "nourls") then
              odUpdate [] c
            else [])), s)
        else data_fields_explicit (Json.obj entries) c [mode] [] s := rfl
  rw [hstep, if_pos hm]

/-- C4 counterexample: with a constant key colliding with a payload key,
`fields=["*"]` yields N + C - 1 = 1 entries rather than N + C = 2: the
payload value overwrites the pre-inserted constant in place. -/
theorem star_projection_counterexample :
    data_fields "repo" (Json.obj [("org", Json.str "x")]) ["*"]
      [("org", Json.str "acme")] []
      = (.ok [("org", Json.str "x")], [])
    ∧ ([("org", Json.str "x")] : List (String × Json)).length ≠ 1 + 1 :=
  ⟨rfl, by decide⟩

/-- C4 (amended): when the constants' keys are pairwise distinct and
disjoint from the payload's (pairwise-distinct) top-level keys,
`fields=["*"]` returns the constants first, in their own given order,
followed by every top-level payload entry in insertion order — so exactly
N + C entries, each payload key mapped to its payload value. -/
theorem star_projection (e : String) (entries c : List (String × Json))
    (s : List String)
    (hne : (entries.map Prod.fst).Nodup)
    (hcn : (c.map Prod.fst).Nodup)
    (hdisj : ∀ k ∈ c.map Prod.fst, k ∉ entries.map Prod.fst) :
    data_fields e (Json.obj entries) ["*"] c s = (.ok (c ++ entries), s)
    ∧ (c ++ entries).length = entries.length + c.length := by
  refine ⟨?_, by rw [List.length_append, Nat.add_comm]⟩
  rw [data_fields_wildcard_mode e "*" (Or.inl rfl) entries c s]
  by_cases hce : c.isEmpty
  · rw [if_neg (by simp [hce])]
    rw [data_fields_wildcard_star entries [] hne (by simp)]
    have hc0 : c = [] := by simpa using hce
    simp [hc0]
  · rw [if_pos ⟨by simpa using hce, Or.inl rfl⟩,
      odUpdate_fresh c [] hcn (by simp), List.nil_append,
      data_fields_wildcard_star entries c hne
        (fun k hk hkc => hdisj k hkc hk)]

/-- Witness for the amended C4 with disjoint constant and payload keys. -/
theorem star_projection_witness :
    data_fields "repo"
      (Json.obj [("name", Json.str "widgets"), ("id", Json.num 7)])
      ["*"] [("org", Json.str "acme")] []
      = (.ok [("org", Json.str "acme"), ("name", Json.str "widgets"),
          ("id", Json.num 7)], []) :=
  (star_projection "repo"
    [("name", Json.str "widgets"), ("id", Json.num 7)]
    [("org", Json.str "acme")] []
    (by decide) (by decide) (by decide)).1

/-- C5 counterexample: in `nourls` mode with a constant key colliding with
a payload key, the record is not "constants then the non-url keys": the
collided constant is overwritten in place by the payload value, leaving a
single entry. -/
theorem url_projections_counterexample :
    data_fields "repo" (Json.obj [("a", Json.str "x")]) ["nourls"]
      [("a", Json.str "c")] []
      = (.ok [("a", Json.str "x")], [])
    ∧ ([("a", Json.str "x")] : List (String × Json)).length ≠ 1 + 1 :=
  ⟨rfl, by decide⟩

/-- C5 (amended): `fields=["urls"]` returns exactly the top-level entries
whose key ends in the literal `url`, constants never injected — for every
constants mapping, colliding or not; `fields=["nourls"]`, when the
constants' keys are pairwise distinct and disjoint from the payload's
keys, returns the constants first, then exactly the top-level entries
whose key does not end in `url`, with an embedded mapping value's own
`*url` keys removed one level deep only (deeper mappings passed through
unmodified, as `stripUrlKeys` does not recurse). -/
theorem url_projections (e : String) (entries c : List (String × Json))
    (s : List String)
    (hne : (entries.map Prod.fst).Nodup) :
    data_fields e (Json.obj entries) ["urls"] c s
      = (.ok (entries.filter fun kv => pyEndsWith kv.1 "url"), s)
    ∧ ((c.map Prod.fst).Nodup →
      (∀ k ∈ c.map Prod.fst, k ∉ entries.map Prod.fst) →
      data_fields e (Json.obj entries) ["nourls"] c s
        = (.ok (c ++ (entries.filter fun kv => !pyEndsWith kv.1 "url").map
            fun kv => (kv.1, stripUrlKeys kv.2)), s)) := by
  constructor
  · rw [data_fields_wildcard_mode e "urls" (Or.inr (Or.inl rfl))
      entries c s]
    rw [if_neg (by rintro ⟨-, h | h⟩ <;> simp at h)]
    rw [data_fields_wildcard_urls entries [] hne (by simp),
      List.nil_append]
  · intro hcn hdisj
    rw [data_fields_wildcard_mode e "nourls" (Or.inr (Or.inr rfl))
      entries c s]
    by_cases hce : c.isEmpty
    · rw [if_neg (by simp [hce])]
      rw [data_fields_wildcard_nourls entries [] hne (by simp)]
      have hc0 : c = [] := by simpa using hce
      simp [hc0]
    · rw [if_pos ⟨by simpa using hce, Or.inr rfl⟩,
        odUpdate_fresh c [] hcn (by simp), List.nil_append,
        data_fields_wildcard_nourls entries c hne
          (fun k hk hkc => hdisj k hkc hk)]

/-- Witness for the amended C5: url selection (also with a constant
colliding with the payload's `url` key — still not injected), complement
with one-level stripping, and a deeper nested mapping passed through. -/
theorem url_projections_witness :
    data_fields "repo"
      (Json.obj [("url", Json.str "u"), ("html_url", Json.str "h"),
        ("name", Json.str "n"),
        ("owner", Json.obj [("avatar_url", Json.str "a"),
          ("login", Json.str "me"),
          ("meta", Json.obj [("xurl", Json.str "q")])])])
      ["urls"] [("url", Json.str "shadow")] []
      = (.ok [("url", Json.str "u"), ("html_url", Json.str "h")], [])
    ∧ data_fields "repo"
      (Json.obj [("url", Json.str "u"), ("html_url", Json.str "h"),
        ("name", Json.str "n"),
        ("owner", Json.obj [("avatar_url", Json.str "a"),
          ("login", Json.str "me"),
          ("meta", Json.obj [("xurl", Json.str "q")])])])
      ["nourls"] [("org", Json.str "acme")] []
      = (.ok [("org", Json.str "acme"), ("name", Json.str "n"),
          ("owner", Json.obj [("login", Json.str "me"),
            ("meta", Json.obj [("xurl", Json.str "q")])])], []) := by
  have h := url_projections "repo"
    [("url", Json.str "u"), ("html_url", Json.str "h"),
      ("name", Json.str "n"),
      ("owner", Json.obj [("avatar_url", Json.str "a"),
        ("login", Json.str "me"),
        ("meta", Json.obj [("xurl", Json.str "q")])])]
    [("url", Json.str "shadow")] [] (by decide)
  have h2 := url_projections "repo"
    [("url", Json.str "u"), ("html_url", Json.str "h"),
      ("name", Json.str "n"),
      ("owner", Json.obj [("avatar_url", Json.str "a"),
        ("login", Json.str "me"),
        ("meta", Json.obj [("xurl", Json.str "q")])])]
    [("org", Json.str "acme")] [] (by decide)
  exact ⟨by rw [h.1]; rfl, by rw [h2.2 (by decide) (by decide)]; rfl⟩

/-- Invariant of the explicit loop: once the constant for `k` has been (or
will be) emitted, and no non-constant field writes under output key `k`,
the final record maps `k` to the constant. -/
theorem constant_wins_loop (j : Json) (c : List (String × Json))
    (k : String) (v : Json) (hkc : List.lookup k c = some v) :
    ∀ (flds : List String) (values : List (String × Json))
      (s : List String),
    (∀ f ∈ flds, List.lookup f c = none →
      pyReplaceDots f ≠ k ∧ f ≠ k) →
    (k ∈ flds ∨ List.lookup k values = some v) →
    ∀ record, (data_fields_explicit j c flds values s).1 = .ok record →
      List.lookup k record = some v := by
  intro flds
  induction flds with
  | nil =>
    intro values s _ hstart record hrec
    rcases hstart with h | h
    · exact absurd h (by simp)
    · simp only [data_fields_explicit] at hrec
      rw [← Except.ok.inj hrec]
      exact h
  | cons f rest ih =>
    intro values s hcol hstart record hrec
    simp only [data_fields_explicit] at hrec
    by_cases hfc : ¬c.isEmpty ∧ (List.lookup f c).isSome
    · rw [if_pos hfc] at hrec
      by_cases hfk : f = k
      · subst hfk
        refine ih _ _ (fun f2 hf2 => hcol f2 (by simp [hf2]))
          (Or.inr ?_) record hrec
        rw [lookup_odSet_self, hkc]
        rfl
      · refine ih _ _ (fun f2 hf2 => hcol f2 (by simp [hf2]))
          ?_ record hrec
        rcases hstart with hmem | hv
        · rcases List.mem_cons.mp hmem with he | hmem'
          · exact absurd he.symm hfk
          · exact Or.inl hmem'
        · refine Or.inr ?_
          rw [lookup_odSet_ne values _ (fun he => hfk he.symm)]
          exact hv
    · rw [if_neg hfc] at hrec
      have hfnone : List.lookup f c = none := by
        cases hl : List.lookup f c with
        | none => rfl
        | some w =>
          exfalso
          apply hfc
          constructor
          · intro hemp
            rw [show c = [] from by simpa using hemp] at hl
            simp [List.lookup] at hl
          · rw [hl]; rfl
      obtain ⟨hfr, hfk⟩ := hcol f (by simp) hfnone
      have htail := fun f2 (hf2 : f2 ∈ rest) => hcol f2 (by simp [hf2])
      have hrest : k ∈ rest ∨ List.lookup k values = some v := by
        rcases hstart with hmem | hv
        · rcases List.mem_cons.mp hmem with he | hmem'
          · exact absurd he.symm hfk
          · exact Or.inl hmem'
        · exact Or.inr hv
      by_cases hp : pyLower f = "private"
      · rw [if_pos hp] at hrec
        cases hsub : pySubscript j f with
        | ok item =>
          rw [hsub] at hrec
          refine ih _ _ htail ?_ record hrec
          rcases hrest with hmem | hv
          · exact Or.inl hmem
          · refine Or.inr ?_
            rw [lookup_odSet_ne _ _ (fun he => hfk he.symm),
              lookup_odSet_ne _ _ (fun he => hfr he.symm)]
            exact hv
        | error err =>
          rw [hsub] at hrec
          exact absurd hrec (by simp)
      · rw [if_neg hp] at hrec
        refine ih _ _ htail ?_ record hrec
        rcases hrest with hmem | hv
        · exact Or.inl hmem
        · refine Or.inr ?_
          rw [lookup_odSet_ne _ _ (fun he => hfr he.symm)]
          exact hv

/-- C6 counterexample: the constant for key `x_y` is emitted but then
overwritten by the later requested path `x.y`, whose underscored output
key collides with it — the record's value for `x_y` comes from the
payload, not the constant. -/
theorem constant_wins_counterexample :
    (data_fields "repo" (Json.obj [("x", Json.obj [("y", Json.str "v")])])
      ["x_y", "x.y"] [("x_y", Json.str "c")] []).1
      = .ok [("x_y", Json.str "v")]
    ∧ Json.str "v" ≠ Json.str "c" :=
  ⟨rfl, by simp⟩

/-- C6 (amended): in explicit mode, a requested field path that is a key
of the constants mapping is emitted with the constant's value under that
exact key name, the payload not being consulted for that field; the final
record's value for that key equals the constant provided no other
requested path (one not itself a constant key) has an underscored output
name, or a `private`-cased name, colliding with that key. -/
theorem constant_wins (e : String) (j : Json) (flds : List String)
    (c : List (String × Json)) (s : List String) (k : String) (v : Json)
    (hk : k ∈ flds) (hkc : List.lookup k c = some v)
    (hcol : ∀ f ∈ flds, List.lookup f c = none →
      pyReplaceDots f ≠ k ∧ f ≠ k)
    (hw : flds.headD "" ≠ "*" ∧ flds.headD "" ≠ "urls"
      ∧ flds.headD "" ≠ "nourls") :
    ∀ record, (data_fields e j flds c s).1 = .ok record →
      List.lookup k record = some v := by
  obtain ⟨f0, rest, rfl⟩ := List.exists_cons_of_ne_nil
    (List.ne_nil_of_mem hk)
  simp only [List.headD_cons] at hw
  simp only [data_fields, List.isEmpty_cons]
  rw [if_neg (by rintro (h | h | h) <;> simp_all)]
  exact constant_wins_loop j c k v hkc (f0 :: rest) [] s hcol (Or.inl hk)

/-- Witness for the amended C6: the constant `org` wins over the payload's
own `org` value. -/
theorem constant_wins_witness :
    (data_fields "repo"
      (Json.obj [("name", Json.str "w"), ("org", Json.str "zzz")])
      ["org", "name"] [("org", Json.str "acme")] []).1
      = .ok [("org", Json.str "acme"), ("name", Json.str "w")]
    ∧ List.lookup "org"
        [("org", Json.str "acme"), ("name", Json.str "w")]
      = some (Json.str "acme") :=
  ⟨rfl,
    constant_wins "repo"
      (Json.obj [("name", Json.str "w"), ("org", Json.str "zzz")])
      ["org", "name"] [("org", Json.str "acme")] [] "org"
      (Json.str "acme") (by simp) rfl
      (by
        intro f hf hnone
        rcases List.mem_cons.mp hf with rfl | hf2
        · simp [List.lookup] at hnone
        · rcases List.mem_cons.mp hf2 with rfl | hf3
          · exact ⟨by decide, by decide⟩
          · exact absurd hf3 (by simp))
      (by refine ⟨?_, ?_, ?_⟩ <;> decide)
      [("org", Json.str "acme"), ("name", Json.str "w")] rfl⟩

/-- A name that lowercases to `private` contains no dot. -/
theorem no_dot_of_pyLower_private {k : String}
    (h : pyLower k = "private") : ∀ ch ∈ k.toList, ch ≠ '.' := by
  intro ch hch he
  subst he
  have hdata : k.toList.map Char.toLower = "private".toList :=
    congrArg String.toList h
  have hmem : Char.toLower '.' ∈ "private".toList :=
    hdata ▸ List.mem_map_of_mem Char.toLower hch
  rw [show Char.toLower '.' = '.' from by decide] at hmem
  exact absurd hmem (by decide)

theorem splitDotsAux_no_dots :
    ∀ (cs acc : List Char), (∀ ch ∈ cs, ch ≠ '.') →
    splitDotsAux acc cs = [String.mk (acc.reverse ++ cs)] := by
  intro cs
  induction cs with
  | nil => intro acc _; simp [splitDotsAux]
  | cons ch cs ih =>
    intro acc h
    simp only [splitDotsAux]
    rw [if_neg (h ch (by simp)), ih (ch :: acc)
      (fun c2 hc2 => h c2 (by simp [hc2]))]
    simp

/-- A dot-free name splits into the single segment equal to itself. -/
theorem pySplitDots_no_dots {s : String}
    (h : ∀ ch ∈ s.toList, ch ≠ '.') : pySplitDots s = [s] := by
  unfold pySplitDots
  rw [splitDotsAux_no_dots s.toList [] h]
  cases s
  rfl

/-- Replacing dots in a dot-free name is the identity. -/
theorem pyReplaceDots_no_dots {s : String}
    (h : ∀ ch ∈ s.toList, ch ≠ '.') : pyReplaceDots s = s := by
  unfold pyReplaceDots
  have : s.toList.map (fun c => if c = '.' then '_' else c)
      = s.toList.map id := by
    apply List.map_congr_left
    intro ch hch
    simp [h ch hch]
  rw [this, List.map_id]
  cases s
  rfl

/-- C7: a requested field whose name case-insensitively equals `private`,
present at top level with a boolean value and not a constants key,
projects to the string `"private"` when the payload value is true and
`"public"` when it is false — the post-process overwriting the raw
resolver output under the same key. -/
theorem private_field_projection (e : String)
    (entries c : List (String × Json)) (s : List String) (k : String)
    (b : Bool)
    (hl : pyLower k = "private")
    (hin : List.lookup k entries = some (Json.bool b))
    (hc : List.lookup k c = none) :
    data_fields e (Json.obj entries) [k] c s
      = (.ok [(k, Json.str (if b then "private" else "public"))], s) := by
  have hnd : ∀ ch ∈ k.toList, ch ≠ '.' := no_dot_of_pyLower_private hl
  have hsplit : pySplitDots k = [k] := pySplitDots_no_dots hnd
  have hrepl : pyReplaceDots k = k := pyReplaceDots_no_dots hnd
  have hsub : pySubscript (Json.obj entries) k = .ok (Json.bool b) := by
    simp [pySubscript, hin]
  have hnv : nested_json_value (Json.obj entries) k s
      = (Json.bool b, s) := by
    have e1 : nested_lookup (Json.obj entries) k
        = pySubscript (Json.obj entries) k := by
      unfold nested_lookup
      rw [hsplit]
      rfl
    unfold nested_json_value
    rw [e1, hsub]
  have hk1 : k ≠ "*" := by
    intro he; rw [he] at hl; exact absurd hl (by decide)
  have hk2 : k ≠ "urls" := by
    intro he; rw [he] at hl; exact absurd hl (by decide)
  have hk3 : k ≠ "nourls" := by
    intro he; rw [he] at hl; exact absurd hl (by decide)
  simp only [data_fields, List.isEmpty_cons]
  rw [if_neg (by rintro (h | h | h) <;> simp_all)]
  simp only [data_fields_explicit]
  rw [if_neg (by rintro ⟨-, hsome⟩; rw [hc] at hsome; simp at hsome)]
  rw [hnv, if_pos hl]
  simp only [hsub, hrepl]
  simp [data_fields_explicit, odSet, pyTruthy]

/-- Witness for C7: `Private`/`private` fields with boolean values project
to `"private"` and `"public"`. -/
theorem private_field_projection_witness :
    data_fields "repo" (Json.obj [("Private", Json.bool true)])
      ["Private"] [] []
      = (.ok [("Private", Json.str "private")], [])
    ∧ data_fields "repo" (Json.obj [("private", Json.bool false)])
      ["private"] [] []
      = (.ok [("private", Json.str "public")], []) :=
  ⟨by
    rw [private_field_projection "repo" [("Private", Json.bool true)] []
      [] "Private" true (by decide) rfl rfl]
    rfl,
   by
    rw [private_field_projection "repo" [("private", Json.bool false)] []
      [] "private" false (by decide) rfl rfl]
    rfl⟩

/-- C8: aggregation projects every item of the flattened pages in arrival
order — the result is `mapM` of the projection over the flattened items,
one record per item, independent of page boundaries; zero pages yield an
empty batch without error; on the claim's concrete example three records
come back in order 1, 2, 3 across the page boundary. -/
theorem aggregation_order (pages : List (List Json)) (e : String)
    (flds : List String) (c : List (String × Json)) (s : List String) :
    ((github_data pages e flds c s).1
      = (github_allpages pages).mapM
          (fun item => (data_fields e item flds c []).1))
    ∧ github_data [] e flds c s = (.ok [], s)
    ∧ github_data
        [[Json.obj [("id", Json.num 1)]],
         [Json.obj [("id", Json.num 2)], Json.obj [("id", Json.num 3)]]]
        "repo" ["id"] [] []
      = (.ok [[("id", Json.num 1)], [("id", Json.num 2)],
          [("id", Json.num 3)]], []) :=
  ⟨extract_fields_loop_eq_mapM e flds c (github_allpages pages) s,
   rfl, rfl⟩

/-- The extraction loop on a single never-resolving field: one record per
item, each `{path_with_underscores: null}`, and the path recorded in the
set exactly once. -/
theorem unknown_recorded_once_loop (e p : String)
    (c : List (String × Json))
    (hw : p ≠ "*" ∧ p ≠ "urls" ∧ p ≠ "nourls")
    (hc : List.lookup p c = none)
    (hp : pyLower p ≠ "private") :
    ∀ (items : List Json) (s : List String),
    (∀ item ∈ items, (nested_lookup item p).toOption = none) →
    extract_fields_loop e [p] c items s
      = (.ok (items.map fun _ => [(pyReplaceDots p, Json.null)]),
         if items.isEmpty then s else setAdd s p) := by
  intro items
  induction items with
  | nil => intro s _; simp [extract_fields_loop]
  | cons item rest ih =>
    intro s hr
    have hitem : data_fields e item [p] c s
        = (.ok [(pyReplaceDots p, Json.null)], setAdd s p) := by
      simp only [data_fields, List.isEmpty_cons]
      rw [if_neg (by rintro (h | h | h) <;> simp_all)]
      simp only [data_fields_explicit]
      rw [if_neg (by rintro ⟨-, hsome⟩; rw [hc] at hsome; simp at hsome)]
      have hnv : nested_json_value item p s = (Json.null, setAdd s p) := by
        unfold nested_json_value
        cases hl : nested_lookup item p with
        | ok w =>
          exfalso
          have := hr item (by simp)
          rw [hl] at this
          simp [Except.toOption] at this
        | error err => rfl
      rw [hnv, if_neg hp]
      simp [data_fields_explicit, odSet]
    simp only [extract_fields_loop, hitem]
    rw [ih (setAdd s p) (fun i hi => hr i (by simp [hi]))]
    cases hre : rest.isEmpty <;>
      simp [hre, setAdd_idem]

/-- C9 counterexample: the requested path `private`, resolving in none of
the batch's items, does not yield one null-valued record per item —
`data_fields` raises `KeyError` on the first item (the unguarded
`jsondata[fldname]` of the `private` special case), so aggregation
returns no records at all. -/
theorem unknown_recorded_once_counterexample :
    github_data [[Json.obj []]] "repo" ["private"] [] []
      = (.error PyErr.keyError, ["private"])
    ∧ ∀ records : List (List (String × Json)),
      (github_data [[Json.obj []]] "repo" ["private"] [] []).1
        ≠ .ok records :=
  ⟨rfl, fun _ h => Except.noConfusion h⟩

/-- C9 (amended): for a batch with at least one item and a requested path
(a non-wildcard dotted name, outside the constants — which would shadow
resolution — and not case-insensitively named `private`, which aborts per
the C2 bug) that resolves in none of the items, aggregation still returns
one record per item, each mapping the underscored path to null, while the
unknown-field set gains exactly one entry for the path across the whole
batch — not one per item; the set is only appended to (`s ++ [p]` when
the path is new) and its prior contents never alter the returned
records. -/
theorem unknown_recorded_once (pages : List (List Json)) (e p : String)
    (c : List (String × Json)) (s : List String)
    (h0 : pages.flatten ≠ [])
    (hw : p ≠ "*" ∧ p ≠ "urls" ∧ p ≠ "nourls")
    (hc : List.lookup p c = none)
    (hp : pyLower p ≠ "private")
    (hr : ∀ item ∈ pages.flatten,
      (nested_lookup item p).toOption = none) :
    github_data pages e [p] c s
      = (.ok (pages.flatten.map fun _ =>
          [(pyReplaceDots p, Json.null)]), setAdd s p)
    ∧ (p ∉ s → (github_data pages e [p] c s).2 = s ++ [p])
    ∧ ∀ s2, (github_data pages e [p] c s2).1
        = (github_data pages e [p] c s).1 := by
  have hie : pages.flatten.isEmpty = false := by simpa using h0
  have hmain :=
    unknown_recorded_once_loop e p c hw hc hp pages.flatten s hr
  rw [hie, if_neg (by simp)] at hmain
  have hflat : github_data pages e [p] c s
      = extract_fields_loop e [p] c pages.flatten s := rfl
  refine ⟨by rw [hflat, hmain], ?_, ?_⟩
  · intro hns
    rw [hflat, hmain]
    exact setAdd_of_not_mem hns
  · intro s2
    exact (extract_fields_loop_eq_mapM e [p] c pages.flatten
        s2).trans
      (extract_fields_loop_eq_mapM e [p] c pages.flatten s).symm

/-- Witness for C9: a two-page batch, a path absent from both items — two
null-valued records, a single set entry. -/
theorem unknown_recorded_once_witness :
    github_data [[Json.obj [("name", Json.str "a")]],
      [Json.obj [("name", Json.str "b")]]] "repo" ["owner.id"] [] []
      = (.ok [[("owner_id", Json.null)], [("owner_id", Json.null)]],
         ["owner.id"]) := by
  have h := unknown_recorded_once
    [[Json.obj [("name", Json.str "a")]],
      [Json.obj [("name", Json.str "b")]]] "repo" "owner.id" [] []
    (by simp) (by refine ⟨?_, ?_, ?_⟩ <;> decide) rfl (by decide)
    (by intro item hi; fin_cases hi <;> rfl)
  rw [h.1]
  rfl

end Gitdata
